import Mathlib

/-!
Shallow embedding of `src/vanisher/main.py` (class `Vanisher`), a JSON-backed
configuration store with dot-notation key paths and environment-variable
overrides.  Python values are modelled by the inductive `Value`; Python `dict`s
by insertion-ordered association lists (`Dict`); `os.getenv` by an external
function `Env := String → Option String`; file I/O is dropped (`write` has no
observable effect on the in-memory state) except for `_safe_read`, whose
possible inputs are modelled by `FileState`.
-/

namespace Vanisher

/-- A Python/JSON value as it occurs in the store: `none` is Python `None`,
`float` is modelled by a rational (exact decimal arithmetic stands in for
IEEE doubles; the claims only use values where the two agree). -/
inductive Value where
  | none : Value
  | bool : Bool → Value
  | int : Int → Value
  | float : ℚ → Value
  | str : String → Value
  | list : List Value → Value
  | dict : List (String × Value) → Value
deriving Repr

/-- A Python `dict` with string keys: an insertion-ordered association list. -/
abbrev Dict := List (String × Value)

/-- `d[k]` lookup: first (and in a real Python dict, only) binding of `k`. -/
def dictGet : Dict → String → Option Value
  | [], _ => Option.none
  | (k', v') :: rest, k => if k' = k then some v' else dictGet rest k

/-- `d[k] = v` assignment: replace the first binding of `k` in place, else
append at the end (Python dicts keep the position of an existing key and
append new keys in insertion order). -/
def dictSet : Dict → String → Value → Dict
  | [], k, v => [(k, v)]
  | (k', v') :: rest, k, v =>
      if k' = k then (k, v) :: rest else (k', v') :: dictSet rest k v

/-- `del d[k]`: remove the binding of `k` (on a real Python dict there is at
most one; filtering all occurrences agrees with that on well-formed dicts). -/
def dictDel : Dict → String → Dict
  | [], _ => []
  | (k', v') :: rest, k =>
      if k' = k then dictDel rest k else (k', v') :: dictDel rest k

/-- Python `v is None`. -/
def isNone : Value → Bool
  | .none => true
  | _ => false

/-- Python `isinstance(v, dict)`. -/
def isDict : Value → Bool
  | .dict _ => true
  | _ => false

/-- Helper for `splitKey`: scan the characters, cutting at each `'.'`;
`acc` holds the (reversed) characters of the piece being built. -/
def splitDot : List Char → List Char → List String
  | [], acc => [String.mk acc.reverse]
  | c :: cs, acc =>
      if c = '.' then String.mk acc.reverse :: splitDot cs []
      else splitDot cs (c :: acc)

/-- Python `key.split(".")`: e.g. `"a.b" ↦ ["a","b"]`, `"" ↦ [""]`,
`"a..b" ↦ ["a","","b"]`.  Never returns the empty list. -/
def splitKey (s : String) : List String := splitDot s.data []

/-- `Vanisher._env_key`: `key.replace(".", "_").upper()`, character by
character (Python's `str.upper` acts per character on the identifier-like
keys in play; `'_'.upper() = '_'`, so replacing first and upper-casing the
rest is the composite map below). -/
def env_key (key : String) : String :=
  String.mk (key.data.map (fun c => if c = '.' then '_' else c.toUpper))

/-- Python `str.strip()` on a character list: drop leading and trailing
whitespace. -/
def stripChars (cs : List Char) : List Char :=
  ((cs.dropWhile Char.isWhitespace).reverse.dropWhile Char.isWhitespace).reverse

/-- Python `str.strip()`. -/
def pyStrip (s : String) : String := String.mk (stripChars s.data)

/-- Python `str.lower()`, character by character. -/
def pyLower (s : String) : String := String.mk (s.data.map Char.toLower)

/-- The process environment (`os.getenv`): total map from variable names to
optional string values. -/
abbrev Env := String → Option String

/-- The in-memory state of a `Vanisher` instance: its `_data` mapping and the
`env_override` flag.  The file path plays no role in the modelled behaviour. -/
structure Store where
  data : Dict
  envOverride : Bool

/-- `Vanisher._check_env` (with the default argument `None`, as `_resolve`
and `has` call it): return `None` unless `env_override` is set, else probe
the environment at the derived key. -/
def check_env (env : Env) (s : Store) (key : String) : Option String :=
  if s.envOverride then env (env_key key) else Option.none

/-- The traversal loop of `Vanisher._get_single`: walk the segments; at each
step, if the current node is not a dict or lacks the segment, return the
default. -/
def getWalk : Value → List String → Value → Value
  | cur, [], _ => cur
  | cur, k :: ks, dflt =>
      match cur with
      | .dict d =>
          match dictGet d k with
          | some v => getWalk v ks dflt
          | Option.none => dflt
      | _ => dflt

/-- `Vanisher._get_single`: split the key on dots and walk `data`. -/
def get_single (s : Store) (key : String) (dflt : Value) : Value :=
  getWalk (.dict s.data) (splitKey key) dflt

/-- `Vanisher._resolve`: an environment override (a non-`None` `getenv`
result, necessarily a string) wins outright; otherwise fall through to the
pure data walk. -/
def resolve (env : Env) (s : Store) (key : String) (dflt : Value) : Value :=
  match check_env env s key with
  | some e => .str e
  | Option.none => get_single s key dflt

/-- `Vanisher.get`: with exactly one key, the resolved value itself; with any
other arity, a dict mapping each requested key to its resolved value (built
in request order, later duplicates overwriting earlier ones, as the Python
dict comprehension does). -/
def get (env : Env) (s : Store) (keys : List String) (dflt : Value) : Value :=
  match keys with
  | [key] => resolve env s key dflt
  | _ =>
      .dict (keys.foldl (fun acc k => dictSet acc k (resolve env s k dflt)) [])

/-- The traversal loop of `Vanisher.has`: every segment must be present. -/
def hasWalk : Value → List String → Bool
  | _, [] => true
  | cur, k :: ks =>
      match cur with
      | .dict d =>
          match dictGet d k with
          | some v => hasWalk v ks
          | Option.none => false
      | _ => false

/-- `Vanisher.has`: a present environment override counts as present; else
walk the data. -/
def has (env : Env) (s : Store) (key : String) : Bool :=
  if s.envOverride ∧ (check_env env s key).isSome then true
  else hasWalk (.dict s.data) (splitKey key)

/-- `Vanisher._set_single` on already-split segments: walk all but the last
segment, substituting an empty dict wherever the segment is absent or bound
to a non-dict, then bind the final segment. -/
def setWalk : Dict → List String → Value → Dict
  | d, [], _ => d
  | d, [k], v => dictSet d k v
  | d, k :: k' :: ks, v =>
      let sub : Dict :=
        match dictGet d k with
        | some (.dict m) => m
        | _ => []
      dictSet d k (.dict (setWalk sub (k' :: ks) v))

/-- `Vanisher._set_single`. -/
def set_single (s : Store) (key : String) (v : Value) : Store :=
  { s with data := setWalk s.data (splitKey key) v }

/-- `Vanisher.set` with a single string key (the `write` to disk that follows
has no in-memory effect and is not modelled). -/
def set (s : Store) (key : String) (v : Value) : Store :=
  set_single s key v

/-- `Vanisher._delete_single` on already-split segments: walk to the parent
of the final segment; a broken chain contributes nothing; otherwise remove
the final binding and return the removed value.  Returns the new dict and
the Python return value (`Value.none` both for "absent" and for a stored
`None`, exactly as the Python function conflates them). -/
def deleteWalk : Dict → List String → Dict × Value
  | d, [] => (d, .none)
  | d, [k] =>
      match dictGet d k with
      | some v => (dictDel d k, v)
      | Option.none => (d, .none)
  | d, k :: k' :: ks =>
      match dictGet d k with
      | some (.dict m) =>
          let r := deleteWalk m (k' :: ks)
          (dictSet d k (.dict r.1), r.2)
      | some _ => (d, .none)
      | Option.none => (d, .none)

/-- One iteration of the loop in `Vanisher.delete`: run `_delete_single` on
the current data and record `key ↦ value` in `deleted` only when the
returned value is not `None`. -/
def deleteStep (acc : Dict × Dict) (key : String) : Dict × Dict :=
  let r := deleteWalk acc.1 (splitKey key)
  (r.1, if isNone r.2 then acc.2 else dictSet acc.2 key r.2)

/-- `Vanisher.delete`: process the requested keys in order against the
evolving data; the result pairs the final data with the `deleted` mapping
that `_return=True` exposes. -/
def delete (d : Dict) (keys : List String) : Dict × Dict :=
  keys.foldl deleteStep (d, [])

/-- `Vanisher.delete` at the store level. -/
def deleteStore (s : Store) (keys : List String) : Store × Dict :=
  let r := delete s.data keys
  ({ s with data := r.1 }, r.2)

mutual

/-- The per-key action of `_deep_merge` in `Vanisher.merge`: when the
existing binding and the incoming value are both dicts they are merged
recursively (Python mutates `a[k]` in place, which keeps its position, as
`dictSet` does); otherwise the (deep-copied — in this pure model, identical)
incoming value replaces the existing one. -/
def mergedVal : Option Value → Value → Value
  | some (.dict am), .dict bm => .dict (deepMerge am bm)
  | _, vb => vb
termination_by _ v => sizeOf v
decreasing_by
  all_goals simp_wf

/-- The `_deep_merge` helper of `Vanisher.merge`: fold the per-key action
over the incoming bindings in iteration order. -/
def deepMerge : Dict → Dict → Dict
  | a, [] => a
  | a, (k, v) :: rest => deepMerge (dictSet a k (mergedVal (dictGet a k) v)) rest
termination_by _ b => sizeOf b
decreasing_by
  all_goals simp_wf
  all_goals omega

end

/-- `Vanisher.merge` (the trailing disk write is not modelled). -/
def merge (s : Store) (newData : Dict) : Store :=
  { s with data := deepMerge s.data newData }

/-- The `_walk` helper of `Vanisher.list_keys`: depth-first, in insertion
order; a dict value is descended into under the extended path, any other
value emits its path.  An empty path so far (`pfx = ""`, which Python treats
as falsy) contributes no separator. -/
def listWalk : Dict → String → List String
  | [], _ => []
  | (k, v) :: rest, pfx =>
      let path := if pfx = "" then k else pfx ++ "." ++ k
      (match v with
       | .dict m => listWalk m path
       | _ => [path]) ++ listWalk rest pfx
termination_by d _ => sizeOf d
decreasing_by
  all_goals simp_wf
  all_goals omega

/-- `Vanisher.list_keys`. -/
def list_keys (d : Dict) : List String := listWalk d ""

/-- `Vanisher.__len__`: the number of leaf paths. -/
def storeLen (s : Store) : Nat := (list_keys s.data).length

/-- Digits to a natural number, most significant first. -/
def digitsToNat (cs : List Char) : Nat :=
  cs.foldl (fun n c => 10 * n + (c.toNat - '0'.toNat)) 0

/-- Models the Python builtin `float(str)` on the plain decimal subset the
store uses: surrounding whitespace stripped, an optional sign, then digits
with an optional fractional part (`"3"`, `"3."`, `".5"`, `"-2.75"`).
Exponents, `inf` and `nan` are outside the modelled subset. -/
def parseDecimal (s : String) : Option ℚ :=
  let cs := stripChars s.data
  let signAndRest : ℚ × List Char :=
    match cs with
    | '-' :: rest => (-1, rest)
    | '+' :: rest => (1, rest)
    | _ => (1, cs)
  let sign := signAndRest.1
  let body := signAndRest.2
  let ip := body.takeWhile Char.isDigit
  let rest := body.dropWhile Char.isDigit
  match rest with
  | [] =>
      if ip.isEmpty then Option.none else some (sign * (digitsToNat ip : ℚ))
  | '.' :: fp =>
      if fp.all Char.isDigit ∧ ¬(ip.isEmpty ∧ fp.isEmpty) then
        some (sign * ((digitsToNat ip : ℚ) +
          (digitsToNat fp : ℚ) / (10 : ℚ) ^ fp.length))
      else Option.none
  | _ => Option.none

/-- The Python builtin `float(val)` as `Vanisher.get_float` applies it:
booleans and ints convert exactly, floats pass through, strings are parsed,
anything else raises (`Option.none` models the caught `TypeError`). -/
def pyFloat : Value → Option ℚ
  | .bool b => some (if b then 1 else 0)
  | .int n => some (n : ℚ)
  | .float q => some q
  | .str t => parseDecimal t
  | _ => Option.none

/-- `Vanisher.get_float`: resolve (the default is fed through `_resolve`,
so an absent key already yields the default), then attempt conversion,
falling back to the default on failure. -/
def get_float (env : Env) (s : Store) (key : String) (dflt : Value) : Value :=
  let val := resolve env s key dflt
  match pyFloat val with
  | some q => .float q
  | Option.none => dflt

/-- `Vanisher.get_bool`: a native bool passes through; a string is stripped
and lower-cased and matched against the fixed token sets, any other string
falling through to the default; ints and floats coerce via truthiness;
everything else yields the default. -/
def get_bool (env : Env) (s : Store) (key : String) (dflt : Value) : Value :=
  let val := resolve env s key dflt
  match val with
  | .bool b => .bool b
  | .str t =>
      let u := pyLower (pyStrip t)
      if u = "true" ∨ u = "yes" ∨ u = "1" ∨ u = "on" then .bool true
      else if u = "false" ∨ u = "no" ∨ u = "0" ∨ u = "off" then .bool false
      else dflt
  | .int n => .bool (decide (n ≠ 0))
  | .float q => .bool (decide (q ≠ 0))
  | _ => dflt

/-- What `Vanisher._safe_read` can observe of the backing file. -/
inductive FileState where
  | absent : FileState
  | unparseable : FileState
  | parsed : Value → FileState

/-- `Vanisher._safe_read`: an absent file is created holding `{}` and an
empty dict returned; a parse or I/O error degrades to an empty dict; but a
file that parses is returned as whatever JSON value it holds, unchecked. -/
def safe_read : FileState → Value
  | .absent => .dict []
  | .unparseable => .dict []
  | .parsed v => v

/-- `Vanisher.reload`: replace `_data` with a fresh `_safe_read` (typed at
`Value` because, as `safe_read` shows, the result need not be a dict). -/
def reload (file : FileState) : Value := safe_read file

/-- Well-formedness every real Python dict enjoys: at every nesting level the
keys are pairwise distinct. -/
def nodupKeys : Dict → Bool
  | [] => true
  | (k, v) :: rest =>
      !(rest.any (fun kv => kv.1 == k)) &&
      (match v with
       | .dict m => nodupKeys m
       | _ => true) &&
      nodupKeys rest
termination_by d => sizeOf d
decreasing_by
  all_goals simp_wf
  all_goals omega

/-- The presence observation implicit in the walks of `_get_single`, `has`
and `_delete_single`: the value reached from `v` by the given segments, or
`Option.none` when the chain is broken.  Unlike the Python-return-value
conventions, this keeps "absent" and "present holding `None`" apart, which
is what lets the delete bookkeeping be characterised. -/
def lookupPath : Value → List String → Option Value
  | v, [] => some v
  | .dict d, k :: ks =>
      match dictGet d k with
      | some v => lookupPath v ks
      | Option.none => Option.none
  | _, _ :: _ => Option.none

/-- The depth-first leaf enumeration underlying `list_keys`, kept as segment
lists instead of joined strings: one entry per non-dict value, in insertion
order. -/
def listSegs : Dict → List (List String)
  | [] => []
  | (k, v) :: rest =>
      (match v with
       | .dict m => (listSegs m).map (fun segs => k :: segs)
       | _ => [[k]]) ++ listSegs rest
termination_by d => sizeOf d
decreasing_by
  all_goals simp_wf
  all_goals omega

/-- The path-string accumulator of `list_keys`'s walk, applied to a whole
segment list: exactly how `listWalk` extends `pfx` one segment at a time. -/
def joinl : String → List String → String
  | pfx, [] => pfx
  | pfx, sg :: sgs => joinl (if pfx = "" then sg else pfx ++ "." ++ sg) sgs

/-- A key that dot-paths can address unambiguously: nonempty and free of
dots. -/
def keyClean (k : String) : Bool := !(k == "") && !(k.data.contains '.')

/-- Every key, at every nesting level, is nonempty and contains no dot — the
condition under which dot-paths name nodes unambiguously. -/
def cleanKeys : Dict → Bool
  | [] => true
  | (k, v) :: rest =>
      keyClean k &&
      (match v with
       | .dict m => cleanKeys m
       | _ => true) &&
      cleanKeys rest
termination_by d => sizeOf d
decreasing_by
  all_goals simp_wf
  all_goals omega

/-! ### Association-list facts (the Python-dict primitives) -/

theorem dictGet_dictSet_self (d : Dict) (k : String) (v : Value) :
    dictGet (dictSet d k v) k = some v := by
  induction d with
  | nil => simp [dictSet, dictGet]
  | cons kv rest ih =>
      obtain ⟨k0, v0⟩ := kv
      by_cases h : k0 = k
      · simp [dictSet, dictGet, h]
      · simp [dictSet, dictGet, h, ih]

theorem dictGet_dictSet_ne (d : Dict) (k k' : String) (v : Value)
    (h : k' ≠ k) : dictGet (dictSet d k v) k' = dictGet d k' := by
  induction d with
  | nil => simp [dictSet, dictGet, Ne.symm h]
  | cons kv rest ih =>
      obtain ⟨k0, v0⟩ := kv
      by_cases h0 : k0 = k
      · subst h0
        simp [dictSet, dictGet, Ne.symm h]
      · simp [dictSet, dictGet, h0, ih]

theorem dictGet_dictDel_self (d : Dict) (k : String) :
    dictGet (dictDel d k) k = Option.none := by
  induction d with
  | nil => simp [dictDel, dictGet]
  | cons kv rest ih =>
      obtain ⟨k0, v0⟩ := kv
      by_cases h : k0 = k
      · simp [dictDel, h, ih]
      · simp [dictDel, dictGet, h, ih]

theorem mem_dictSet {d : Dict} {k p : String} {w v : Value}
    (h : (p, v) ∈ dictSet d k w) : (p, v) ∈ d ∨ (p = k ∧ v = w) := by
  induction d with
  | nil =>
      simp [dictSet] at h
      exact Or.inr h
  | cons kv rest ih =>
      obtain ⟨k0, v0⟩ := kv
      by_cases h0 : k0 = k
      · subst h0
        simp only [dictSet, if_pos rfl] at h
        rcases List.mem_cons.mp h with h1 | h1
        · injection h1 with ha hb
          exact Or.inr ⟨ha, hb⟩
        · exact Or.inl (List.mem_cons_of_mem _ h1)
      · simp only [dictSet, if_neg h0] at h
        rcases List.mem_cons.mp h with h1 | h1
        · exact Or.inl (List.mem_cons.mpr (Or.inl h1))
        · rcases ih h1 with h2 | h2
          · exact Or.inl (List.mem_cons_of_mem _ h2)
          · exact Or.inr h2

/-! ### Splitting keys on dots -/

theorem splitDot_ne_nil (cs acc : List Char) : splitDot cs acc ≠ [] := by
  induction cs generalizing acc with
  | nil => simp [splitDot]
  | cons c cs ih =>
      by_cases h : c = '.'
      · simp [splitDot, h]
      · simp only [splitDot, if_neg h]
        exact ih _

theorem splitKey_ne_nil (s : String) : splitKey s ≠ [] :=
  splitDot_ne_nil _ _

/-! ### Set followed by get -/

theorem getWalk_setWalk (ks : List String) (d : Dict) (v dflt : Value)
    (h : ks ≠ []) : getWalk (.dict (setWalk d ks v)) ks dflt = v := by
  induction ks generalizing d with
  | nil => exact absurd rfl h
  | cons k ks ih =>
      cases ks with
      | nil => simp [setWalk, getWalk, dictGet_dictSet_self]
      | cons k' ks' =>
          simp only [setWalk, getWalk, dictGet_dictSet_self]
          exact ih _ (by simp)

/-- C10: calling `get` with zero keys falls into the dict-comprehension
branch over an empty tuple and returns an empty mapping — it neither raises
nor returns a scalar, whatever the store state and environment. -/
theorem get_no_keys_empty_dict (env : Env) (s : Store) (dflt : Value) :
    get env s [] dflt = Value.dict [] := rfl

/-- C1: with environment override enabled and the environment holding the
string `e` at the derived key of `p`, `get(p)` returns exactly `e` (as a
string), without consulting the data: the result is the same for an
arbitrary data mapping `d` and after any `set(p, v)`. -/
theorem env_override_wins (env : Env) (d : Dict) (p e : String)
    (v dflt : Value) (h : env (env_key p) = some e) :
    get env ⟨d, true⟩ [p] dflt = Value.str e ∧
    get env (set ⟨d, true⟩ p v) [p] dflt = Value.str e := by
  constructor
  · simp [get, resolve, check_env, h]
  · simp [get, resolve, check_env, set, set_single, h]

theorem env_override_wins_witness :
    (fun k => if k = "SERVER_PORT" then some "9090" else Option.none)
        (env_key "server.port") = some "9090" ∧
    get (fun k => if k = "SERVER_PORT" then some "9090" else Option.none)
        (set ⟨[], true⟩ "server.port" (Value.int 8080)) ["server.port"]
        Value.none = Value.str "9090" :=
  ⟨by decide, (env_override_wins _ [] "server.port" "9090" (Value.int 8080)
      Value.none (by decide)).2⟩

/-- C3: `set(p, v)` followed by `get(p)` returns `v`, for every store state,
path and value, provided no environment override is active for `p` (the
`_check_env` probe returns `None`). -/
theorem set_then_get (env : Env) (s : Store) (p : String) (v dflt : Value)
    (h : check_env env s p = Option.none) :
    get env (set s p v) [p] dflt = v := by
  have h' : check_env env
      { data := setWalk s.data (splitKey p) v, envOverride := s.envOverride }
      p = Option.none := by
    simpa [check_env] using h
  simp only [get, resolve, set, set_single, get_single, h']
  exact getWalk_setWalk _ _ _ _ (splitKey_ne_nil p)

theorem set_then_get_witness :
    check_env (fun _ => Option.none) ⟨[], true⟩ "server.port" = Option.none ∧
    get (fun _ => Option.none) (set ⟨[], true⟩ "server.port" (Value.int 8080))
        ["server.port"] Value.none = Value.int 8080 :=
  ⟨rfl, set_then_get (fun _ => Option.none) ⟨[], true⟩ "server.port"
      (Value.int 8080) Value.none rfl⟩

/-! ### Delete -/

theorem hasWalk_deleteWalk (ks : List String) (d : Dict) (h : ks ≠ []) :
    hasWalk (.dict (deleteWalk d ks).1) ks = false := by
  induction ks generalizing d with
  | nil => exact absurd rfl h
  | cons k ks ih =>
      cases ks with
      | nil =>
          cases hg : dictGet d k with
          | none => simp [deleteWalk, hg, hasWalk]
          | some v => simp [deleteWalk, hg, hasWalk, dictGet_dictDel_self]
      | cons k' ks' =>
          cases hg : dictGet d k with
          | none => simp [deleteWalk, hg, hasWalk]
          | some v =>
              cases v
              case dict m =>
                simp only [deleteWalk, hg, hasWalk, dictGet_dictSet_self]
                exact ih m (by simp)
              all_goals simp [deleteWalk, hg, hasWalk]

theorem deleteWalk_deleteWalk (ks : List String) (d : Dict) (h : ks ≠ []) :
    (deleteWalk (deleteWalk d ks).1 ks).2 = Value.none := by
  induction ks generalizing d with
  | nil => exact absurd rfl h
  | cons k ks ih =>
      cases ks with
      | nil =>
          cases hg : dictGet d k with
          | none => simp [deleteWalk, hg]
          | some v => simp [deleteWalk, hg, dictGet_dictDel_self]
      | cons k' ks' =>
          cases hg : dictGet d k with
          | none => simp [deleteWalk, hg]
          | some v =>
              cases v
              case dict m =>
                simp only [deleteWalk, hg, dictGet_dictSet_self]
                exact ih m (by simp)
              all_goals simp [deleteWalk, hg]

theorem deleteWalk_snd (ks : List String) (d : Dict) (h : ks ≠ []) :
    (deleteWalk d ks).2 = (lookupPath (.dict d) ks).getD Value.none := by
  induction ks generalizing d with
  | nil => exact absurd rfl h
  | cons k ks ih =>
      cases ks with
      | nil =>
          cases hg : dictGet d k with
          | none => simp [deleteWalk, hg, lookupPath]
          | some v => simp [deleteWalk, hg, lookupPath]
      | cons k' ks' =>
          cases hg : dictGet d k with
          | none => simp [deleteWalk, hg, lookupPath]
          | some v =>
              cases v
              case dict m =>
                simp only [deleteWalk, hg, lookupPath]
                exact ih m (by simp)
              all_goals simp [deleteWalk, hg, lookupPath]

theorem has_of_no_env (env : Env) (s : Store) (p : String)
    (h : check_env env s p = Option.none) :
    has env s p = hasWalk (.dict s.data) (splitKey p) := by
  simp [has, h]

theorem dictGet_dictDel_ne (d : Dict) (k k' : String) (h : k' ≠ k) :
    dictGet (dictDel d k) k' = dictGet d k' := by
  induction d with
  | nil => rfl
  | cons kv rest ih =>
      obtain ⟨k0, v0⟩ := kv
      by_cases h0 : k0 = k
      · subst h0
        simp [dictDel, dictGet, Ne.symm h, ih]
      · simp [dictDel, dictGet, h0, ih]

theorem hasWalk_eq_isSome : ∀ (ks : List String) (v : Value),
    hasWalk v ks = (lookupPath v ks).isSome := by
  intro ks
  induction ks with
  | nil =>
      intro v
      cases v <;> rfl
  | cons k rest ih =>
      intro v
      cases v
      case dict d =>
        cases hg : dictGet d k with
        | some w =>
            simp only [hasWalk, lookupPath, hg]
            exact ih w
        | none => simp [hasWalk, lookupPath, hg]
      all_goals rfl

/-- Deleting a path removes it: the walk of the same segments in the
resulting data finds nothing. -/
theorem lookupPath_deleteWalk_self (ks : List String) (d : Dict)
    (h : ks ≠ []) :
    lookupPath (.dict (deleteWalk d ks).1) ks = Option.none := by
  have h1 := hasWalk_deleteWalk ks d h
  rw [hasWalk_eq_isSome] at h1
  cases hl : lookupPath (.dict (deleteWalk d ks).1) ks with
  | none => rfl
  | some w =>
      rw [hl] at h1
      simp at h1

/-- Deletions only remove bindings, so a path that is absent stays absent
through any further `_delete_single`. -/
theorem lookupPath_deleteWalk_none : ∀ (ks' : List String) (d : Dict)
    (ks : List String), lookupPath (.dict d) ks = Option.none →
    lookupPath (.dict (deleteWalk d ks').1) ks = Option.none := by
  intro ks'
  induction ks' with
  | nil =>
      intro d ks h
      exact h
  | cons k ktail ih =>
      intro d ks h
      cases ktail with
      | nil =>
          cases hg : dictGet d k with
          | none => simpa [deleteWalk, hg] using h
          | some w =>
              simp only [deleteWalk, hg]
              cases ks with
              | nil => simp [lookupPath] at h
              | cons k0 rest =>
                  by_cases hk0 : k0 = k
                  · subst hk0
                    simp [lookupPath, dictGet_dictDel_self]
                  · simp only [lookupPath] at h ⊢
                    rw [dictGet_dictDel_ne d k k0 hk0]
                    exact h
      | cons k2 ktail2 =>
          cases hg : dictGet d k with
          | none => simpa [deleteWalk, hg] using h
          | some w =>
              cases w
              case dict m =>
                simp only [deleteWalk, hg]
                cases ks with
                | nil => simp [lookupPath] at h
                | cons k0 rest =>
                    by_cases hk0 : k0 = k
                    · subst hk0
                      simp only [lookupPath, dictGet_dictSet_self]
                      simp only [lookupPath, hg] at h
                      exact ih m rest h
                    · simp only [lookupPath] at h ⊢
                      rw [dictGet_dictSet_ne d k k0 _ hk0]
                      exact h
              all_goals simpa [deleteWalk, hg] using h

/-- The evolving data of `delete`'s loop does not depend on the `deleted`
bookkeeping accumulated so far. -/
theorem delete_fst_acc : ∀ (ps : List String) (d acc : Dict),
    (List.foldl deleteStep (d, acc) ps).1 = (delete d ps).1 := by
  intro ps
  induction ps with
  | nil =>
      intro d acc
      rfl
  | cons q ps ih =>
      intro d acc
      show (List.foldl deleteStep (deleteStep (d, acc) q) ps).1
        = (List.foldl deleteStep (deleteStep (d, []) q) ps).1
      simp only [deleteStep]
      rw [ih, ih]

/-- Once a path is absent, the remaining iterations of `delete`'s loop never
record anything for it. -/
theorem no_write_after_absent : ∀ (ps : List String) (d acc : Dict)
    (p : String), lookupPath (.dict d) (splitKey p) = Option.none →
    dictGet (List.foldl deleteStep (d, acc) ps).2 p = dictGet acc p := by
  intro ps
  induction ps with
  | nil =>
      intro d acc p _
      rfl
  | cons q ps ih =>
      intro d acc p habs
      show dictGet (List.foldl deleteStep (deleteStep (d, acc) q) ps).2 p = _
      simp only [deleteStep]
      rw [ih _ _ p (lookupPath_deleteWalk_none (splitKey q) d (splitKey p)
        habs)]
      by_cases hn : isNone (deleteWalk d (splitKey q)).2 = true
      · rw [if_pos hn]
      · rw [if_neg hn]
        by_cases hpq : q = p
        · exfalso
          subst hpq
          have hs := deleteWalk_snd (splitKey q) d (splitKey_ne_nil q)
          rw [habs] at hs
          simp only [Option.getD] at hs
          rw [hs] at hn
          exact hn rfl
        · exact dictGet_dictSet_ne _ _ _ _ (fun hh => hpq hh.symm)

/-- Soundness half of the delete-return characterisation: an entry of the
returned mapping can only come from some request-list position where the
walk, over the data as the earlier deletions left it, found that (non-`None`)
value. -/
theorem delete_ret_forward : ∀ (ps : List String) (d acc : Dict)
    (p : String) (v : Value),
    dictGet (List.foldl deleteStep (d, acc) ps).2 p = some v →
    dictGet acc p = some v ∨
      (isNone v = false ∧ ∃ ps₁ ps₂, ps = ps₁ ++ p :: ps₂ ∧
        lookupPath (.dict (delete d ps₁).1) (splitKey p) = some v) := by
  intro ps
  induction ps with
  | nil =>
      intro d acc p v h
      exact Or.inl h
  | cons q ps ih =>
      intro d acc p v h
      rw [List.foldl_cons] at h
      rcases ih _ _ p v h with hc | ⟨hnn, ps₁, ps₂, hps, hlook⟩
      · simp only [deleteStep] at hc
        by_cases hn : isNone (deleteWalk d (splitKey q)).2 = true
        · rw [if_pos hn] at hc
          exact Or.inl hc
        · rw [if_neg hn] at hc
          by_cases hpq : p = q
          · subst hpq
            rw [dictGet_dictSet_self] at hc
            injection hc with hc
            subst hc
            refine Or.inr ⟨by simpa using hn, [], ps, rfl, ?_⟩
            have hs := deleteWalk_snd (splitKey p) d (splitKey_ne_nil p)
            cases hl : lookupPath (.dict d) (splitKey p) with
            | none =>
                exfalso
                rw [hl] at hs
                simp only [Option.getD] at hs
                rw [hs] at hn
                exact hn rfl
            | some w =>
                rw [hl] at hs
                simp only [Option.getD] at hs
                show lookupPath (.dict d) (splitKey p) = _
                rw [hl, hs]
          · rw [dictGet_dictSet_ne _ _ _ _ hpq] at hc
            exact Or.inl hc
      · refine Or.inr ⟨hnn, q :: ps₁, ps₂, by rw [hps]; rfl, ?_⟩
        have hshift : (delete d (q :: ps₁)).1
            = (delete (deleteWalk d (splitKey q)).1 ps₁).1 := by
          show (List.foldl deleteStep (deleteStep (d, []) q) ps₁).1 = _
          simp only [deleteStep]
          rw [delete_fst_acc]
        rw [hshift]
        exact hlook

/-- Completeness half: a request-list position where the walk over the
then-current data finds a non-`None` value contributes exactly that entry,
and nothing later disturbs it. -/
theorem delete_ret_backward (d : Dict) (ps₁ ps₂ : List String) (p : String)
    (v : Value) (hv : isNone v = false)
    (hl : lookupPath (.dict (delete d ps₁).1) (splitKey p) = some v) :
    dictGet (delete d (ps₁ ++ p :: ps₂)).2 p = some v := by
  have hr2 : (deleteWalk (delete d ps₁).1 (splitKey p)).2 = v := by
    rw [deleteWalk_snd _ _ (splitKey_ne_nil p), hl]
    rfl
  show dictGet (List.foldl deleteStep (d, []) (ps₁ ++ p :: ps₂)).2 p = some v
  rw [List.foldl_append, List.foldl_cons]
  rw [show List.foldl deleteStep (d, []) ps₁ = delete d ps₁ from rfl]
  rw [show deleteStep (delete d ps₁) p
      = ((deleteWalk (delete d ps₁).1 (splitKey p)).1,
        dictSet (delete d ps₁).2 p v) from by
    simp only [deleteStep, hr2, hv]
    rfl]
  rw [no_write_after_absent ps₂ _ _ p
    (lookupPath_deleteWalk_self (splitKey p) (delete d ps₁).1
      (splitKey_ne_nil p))]
  exact dictGet_dictSet_self ..

/-- C4 counterexample: the path `"a"` is present (bound to `None`), yet
`delete("a", _return=True)` returns an empty mapping — the entries of the
returned mapping are not exactly the requested paths that were present. -/
theorem delete_return_counterexample :
    dictGet [("a", Value.none)] "a" = some Value.none ∧
    (delete [("a", Value.none)] ["a"]).2 = [] := by
  constructor
  · rfl
  · rfl

/-- C4 (amended): for every sequence of requested paths,
`delete(...paths, _return=True)` returns a mapping whose entries are exactly
the requested paths whose deletion removed a non-`None` value, each mapped to
that prior value: the returned mapping binds `p` to `v` precisely when some
occurrence of `p` in the request sequence found the non-`None` value `v` by
the delete-walk over the data as the earlier deletions of the same call had
left it — absent paths are omitted, and so are paths whose stored value was
`None` — and, entry-wise, everything returned is a requested path with a
non-`None` value. -/
theorem delete_return_amended :
    (∀ (d : Dict) (ps : List String) (p : String) (v : Value),
      dictGet (delete d ps).2 p = some v ↔
        isNone v = false ∧ ∃ ps₁ ps₂, ps = ps₁ ++ p :: ps₂ ∧
          lookupPath (.dict (delete d ps₁).1) (splitKey p) = some v) ∧
    (∀ (d : Dict) (ps : List String) (p : String) (v : Value),
      (p, v) ∈ (delete d ps).2 → p ∈ ps ∧ isNone v = false) := by
  constructor
  · intro d ps p v
    constructor
    · intro h
      rcases delete_ret_forward ps d [] p v h with hc | hc
      · simp [dictGet] at hc
      · exact hc
    · rintro ⟨hnn, ps₁, ps₂, rfl, hlook⟩
      exact delete_ret_backward d ps₁ ps₂ p v hnn hlook
  · intro d ps p v
    suffices hgen : ∀ (qs : List String) (d0 acc : Dict),
        (p, v) ∈ (List.foldl deleteStep (d0, acc) qs).2 →
        (p, v) ∈ acc ∨ (p ∈ qs ∧ isNone v = false) by
      intro hmem
      rcases hgen ps d [] hmem with hc | hc
      · simp at hc
      · exact hc
    intro qs
    induction qs with
    | nil =>
        intro d0 acc hmem
        exact Or.inl hmem
    | cons q qs ih =>
        intro d0 acc hmem
        simp only [List.foldl] at hmem
        rcases ih _ _ hmem with hc | hc
        · simp only [deleteStep] at hc
          by_cases hn : isNone (deleteWalk d0 (splitKey q)).2 = true
          · rw [if_pos hn] at hc
            exact Or.inl hc
          · rw [if_neg hn] at hc
            rcases mem_dictSet hc with hm | ⟨hp, hv⟩
            · exact Or.inl hm
            · subst hp
              subst hv
              simp only [Bool.not_eq_true] at hn
              exact Or.inr ⟨List.mem_cons_self _ _, hn⟩
        · exact Or.inr ⟨List.mem_cons_of_mem _ hc.1, hc.2⟩

theorem delete_return_amended_witness :
    dictGet (delete [("a", Value.int 5), ("b", Value.none)]
        ["a", "b", "c"]).2 "a" = some (Value.int 5) ∧
    ("a" ∈ ["a", "b", "c"] ∧ isNone (Value.int 5) = false) :=
  ⟨(delete_return_amended.1 [("a", Value.int 5), ("b", Value.none)]
      ["a", "b", "c"] "a" (Value.int 5)).mpr
      ⟨rfl, [], ["b", "c"], rfl, rfl⟩,
   delete_return_amended.2 [("a", Value.int 5), ("b", Value.none)]
     ["a", "b", "c"] "a" (Value.int 5)
     (show ("a", Value.int 5) ∈ [("a", Value.int 5)] from
       List.mem_singleton.mpr rfl)⟩

/-- C5 counterexample: with `env_override` enabled and the variable `P` set
in the environment, `has("p")` is true immediately after `delete("p")` — the
claim's "after delete(p), has(p) returns false" fails as stated. -/
theorem delete_then_has_counterexample :
    has (fun k => if k = "P" then some "1" else Option.none)
      (deleteStore ⟨[("p", Value.int 1)], true⟩ ["p"]).1 "p" = true := by
  decide

/-- C5 (amended): provided no environment override is active for `p`, after
`delete(p)` the call `has(p)` returns false; and (with no proviso) a second
`delete(p, _return=True)` reports nothing newly deleted: `p` does not appear
in the mapping it returns. -/
theorem delete_then_has_amended (env : Env) (s : Store) (p : String)
    (h : check_env env s p = Option.none) :
    has env (deleteStore s [p]).1 p = false ∧
    dictGet (deleteStore (deleteStore s [p]).1 [p]).2 p = Option.none := by
  constructor
  · rw [has_of_no_env env _ p (by simpa [check_env, deleteStore] using h)]
    show hasWalk (.dict (deleteWalk s.data (splitKey p)).1) (splitKey p)
      = false
    exact hasWalk_deleteWalk _ _ (splitKey_ne_nil p)
  · have h2 := deleteWalk_deleteWalk (splitKey p) s.data (splitKey_ne_nil p)
    simp only [deleteStore, delete, List.foldl, deleteStep]
    simp only [h2, isNone, if_pos]
    rfl

theorem delete_then_has_amended_witness :
    check_env (fun _ => Option.none) ⟨[("p", Value.int 1)], true⟩ "p"
        = Option.none ∧
    has (fun _ => Option.none)
        (deleteStore ⟨[("p", Value.int 1)], true⟩ ["p"]).1 "p" = false ∧
    dictGet (deleteStore
        (deleteStore ⟨[("p", Value.int 1)], true⟩ ["p"]).1 ["p"]).2 "p"
        = Option.none :=
  ⟨rfl,
   (delete_then_has_amended (fun _ => Option.none) ⟨[("p", Value.int 1)], true⟩
       "p" rfl).1,
   (delete_then_has_amended (fun _ => Option.none) ⟨[("p", Value.int 1)], true⟩
       "p" rfl).2⟩

/-! ### The backing-file read -/

/-- C2 (code bug): `_safe_read` returns the parsed JSON value unchecked, so
a backing file that parses to a non-object — here `[1, 2, 3]` — leaves the
root of the data a sequence after construction or `reload`, violating the
root-is-always-a-mapping invariant (and `_safe_read`'s own `-> dict`
annotation); only the absent-file and parse-error paths normalise to an
empty mapping. -/
theorem safe_read_root_not_dict :
    isDict (reload (.parsed (.list [.int 1, .int 2, .int 3]))) = false ∧
    isDict (safe_read .absent) = true ∧
    isDict (safe_read .unparseable) = true :=
  ⟨rfl, rfl, rfl⟩

/-! ### Merge -/

theorem deepMerge_nil (a : Dict) : deepMerge a [] = a := by
  simp [deepMerge]

theorem deepMerge_cons (a : Dict) (k : String) (v : Value) (rest : Dict) :
    deepMerge a ((k, v) :: rest)
      = deepMerge (dictSet a k (mergedVal (dictGet a k) v)) rest := by
  conv_lhs => rw [deepMerge]

theorem mergedVal_of_not_dict (o : Option Value) (vb : Value)
    (h : isDict vb = false) : mergedVal o vb = vb := by
  cases o with
  | none => cases vb <;> simp [mergedVal]
  | some w => cases w <;> cases vb <;> simp_all [isDict, mergedVal]

theorem dictGet_deepMerge_not_mem (b : Dict) (a : Dict) (k : String)
    (h : k ∉ b.map Prod.fst) : dictGet (deepMerge a b) k = dictGet a k := by
  induction b generalizing a with
  | nil => rw [deepMerge_nil]
  | cons kv rest ih =>
      obtain ⟨k0, v0⟩ := kv
      simp only [List.map_cons, List.mem_cons] at h
      push_neg at h
      rw [deepMerge_cons, ih _ h.2]
      exact dictGet_dictSet_ne _ _ _ _ h.1

theorem dictGet_deepMerge_nodup (b : Dict) (k : String) (vb : Value) :
    ∀ a : Dict, (b.map Prod.fst).Nodup → dictGet b k = some vb →
      dictGet (deepMerge a b) k = some (mergedVal (dictGet a k) vb) := by
  induction b with
  | nil =>
      intro a _ hb
      simp [dictGet] at hb
  | cons kv rest ih =>
      obtain ⟨k0, v0⟩ := kv
      intro a hnd hb
      rw [List.map_cons, List.nodup_cons] at hnd
      rw [deepMerge_cons]
      by_cases hk : k0 = k
      · subst hk
        simp [dictGet] at hb
        subst hb
        rw [dictGet_deepMerge_not_mem rest _ _ hnd.1]
        exact dictGet_dictSet_self ..
      · simp only [dictGet, if_neg hk] at hb
        rw [ih _ hnd.2 hb]
        rw [dictGet_dictSet_ne _ _ _ _ (fun hh => hk hh.symm)]

theorem merge_scenario (d : Dict) :
    ∃ m2 : Dict,
      dictGet (deepMerge (deepMerge d [("a", .dict [("x", .int 1)])])
          [("a", .dict [("y", .int 2)])]) "a" = some (.dict m2)
      ∧ dictGet m2 "x" = some (.int 1) ∧ dictGet m2 "y" = some (.int 2) := by
  have h1 : dictGet (deepMerge d [("a", .dict [("x", .int 1)])]) "a"
      = some (mergedVal (dictGet d "a") (.dict [("x", .int 1)])) :=
    dictGet_deepMerge_nodup _ _ _ d (by simp) (by simp [dictGet])
  have key1 : ∃ m1 : Dict,
      dictGet (deepMerge d [("a", .dict [("x", .int 1)])]) "a"
        = some (.dict m1) ∧ dictGet m1 "x" = some (.int 1) := by
    rw [h1]
    cases hd : dictGet d "a" with
    | none => exact ⟨[("x", .int 1)], by simp [mergedVal], by simp [dictGet]⟩
    | some w =>
        cases w with
        | dict am =>
            refine ⟨deepMerge am [("x", .int 1)], by simp [mergedVal], ?_⟩
            rw [dictGet_deepMerge_nodup [("x", .int 1)] "x" (.int 1) am
              (by simp) (by simp [dictGet])]
            rw [mergedVal_of_not_dict (dictGet am "x") (.int 1) rfl]
        | none => exact ⟨[("x", .int 1)], by simp [mergedVal], by simp [dictGet]⟩
        | bool b => exact ⟨[("x", .int 1)], by simp [mergedVal], by simp [dictGet]⟩
        | int n => exact ⟨[("x", .int 1)], by simp [mergedVal], by simp [dictGet]⟩
        | float q => exact ⟨[("x", .int 1)], by simp [mergedVal], by simp [dictGet]⟩
        | str t => exact ⟨[("x", .int 1)], by simp [mergedVal], by simp [dictGet]⟩
        | list xs => exact ⟨[("x", .int 1)], by simp [mergedVal], by simp [dictGet]⟩
  obtain ⟨m1, hm1, hx1⟩ := key1
  have h2 : dictGet (deepMerge (deepMerge d [("a", .dict [("x", .int 1)])])
      [("a", .dict [("y", .int 2)])]) "a"
      = some (.dict (deepMerge m1 [("y", .int 2)])) := by
    rw [dictGet_deepMerge_nodup [("a", .dict [("y", .int 2)])] "a"
      (.dict [("y", .int 2)]) _ (by simp) (by simp [dictGet]), hm1]
    simp [mergedVal]
  refine ⟨deepMerge m1 [("y", .int 2)], h2, ?_, ?_⟩
  · rw [dictGet_deepMerge_not_mem _ _ _ (by simp)]
    exact hx1
  · rw [dictGet_deepMerge_nodup [("y", .int 2)] "y" (.int 2) m1
      (by simp) (by simp [dictGet])]
    rw [mergedVal_of_not_dict (dictGet m1 "y") (.int 2) rfl]

/-- C6: `merge` deep-merges: at each key of the incoming mapping the result
holds the recursive merge when both sides are mappings and the incoming
value otherwise (first conjunct, for any incoming Python dict, whose keys
are distinct); in particular `merge({"a":{"x":1}})` followed by
`merge({"a":{"y":2}})` yields `get("a.x") == 1` and `get("a.y") == 2`, from
any starting store, provided no environment override is active for those two
paths. -/
theorem merge_deep_merges :
    (∀ (a b : Dict) (k : String) (vb : Value),
      (b.map Prod.fst).Nodup → dictGet b k = some vb →
      dictGet (deepMerge a b) k = some (mergedVal (dictGet a k) vb)) ∧
    (∀ (env : Env) (s : Store) (dflt : Value),
      check_env env s "a.x" = Option.none →
      check_env env s "a.y" = Option.none →
      get env (merge (merge s [("a", .dict [("x", .int 1)])])
          [("a", .dict [("y", .int 2)])]) ["a.x"] dflt = Value.int 1 ∧
      get env (merge (merge s [("a", .dict [("x", .int 1)])])
          [("a", .dict [("y", .int 2)])]) ["a.y"] dflt = Value.int 2) := by
  constructor
  · intro a b k vb hnd hb
    exact dictGet_deepMerge_nodup b k vb a hnd hb
  · intro env s dflt hx hy
    obtain ⟨m2, hm2, hx2, hy2⟩ := merge_scenario s.data
    have hex : (merge (merge s [("a", .dict [("x", .int 1)])])
        [("a", .dict [("y", .int 2)])]).envOverride = s.envOverride := rfl
    have hdata : (merge (merge s [("a", .dict [("x", .int 1)])])
        [("a", .dict [("y", .int 2)])]).data
        = deepMerge (deepMerge s.data [("a", .dict [("x", .int 1)])])
            [("a", .dict [("y", .int 2)])] := rfl
    constructor
    · have hcx : check_env env (merge (merge s
          [("a", .dict [("x", .int 1)])]) [("a", .dict [("y", .int 2)])])
          "a.x" = Option.none := by
        simpa [check_env, hex] using hx
      simp only [get, resolve, hcx, get_single, hdata]
      show getWalk _ ["a", "x"] dflt = Value.int 1
      simp [getWalk, hm2, hx2]
    · have hcy : check_env env (merge (merge s
          [("a", .dict [("x", .int 1)])]) [("a", .dict [("y", .int 2)])])
          "a.y" = Option.none := by
        simpa [check_env, hex] using hy
      simp only [get, resolve, hcy, get_single, hdata]
      show getWalk _ ["a", "y"] dflt = Value.int 2
      simp [getWalk, hm2, hy2]

theorem merge_deep_merges_witness :
    ([("x", Value.int 1)].map Prod.fst).Nodup ∧
    dictGet [("x", Value.int 1)] "x" = some (Value.int 1) ∧
    dictGet (deepMerge [] [("x", Value.int 1)]) "x"
      = some (mergedVal (dictGet ([] : Dict) "x") (Value.int 1)) ∧
    check_env (fun _ => Option.none) ⟨[], false⟩ "a.x" = Option.none ∧
    get (fun _ => Option.none)
      (merge (merge ⟨[], false⟩ [("a", .dict [("x", .int 1)])])
        [("a", .dict [("y", .int 2)])]) ["a.x"] Value.none = Value.int 1 :=
  ⟨by simp, rfl,
   merge_deep_merges.1 [] [("x", Value.int 1)] "x" (Value.int 1)
     (by simp) rfl,
   rfl,
   (merge_deep_merges.2 (fun _ => Option.none) ⟨[], false⟩ Value.none
     rfl rfl).1⟩

/-! ### Typed getters -/

theorem parseDecimal_314 : parseDecimal "3.14" = some (3.14 : ℚ) := by
  have h1 : parseDecimal "3.14"
      = some (1 * (((3 : ℕ) : ℚ) + ((14 : ℕ) : ℚ) / 10 ^ 2)) := rfl
  rw [h1]
  norm_num

/-- C8: `get_bool` coerces by the fixed rules — a native boolean passes
through; a string, stripped and lower-cased, maps through the two token
sets, any other string yielding the default; ints and floats coerce via
truthiness (`≠ 0`); `None`, sequences and mappings yield the default — and
for the raw stored string `"3.14"` at `"ratio"` (a store with no active
override for it), `get_float` returns `3.14` while `get_bool` returns the
default. -/
theorem get_bool_rules :
    (∀ (env : Env) (s : Store) (k : String) (dflt : Value) (b : Bool),
      resolve env s k dflt = .bool b → get_bool env s k dflt = .bool b) ∧
    (∀ (env : Env) (s : Store) (k : String) (dflt : Value) (t : String),
      resolve env s k dflt = .str t →
      pyLower (pyStrip t) ∈ (["true", "yes", "1", "on"] : List String) →
      get_bool env s k dflt = .bool true) ∧
    (∀ (env : Env) (s : Store) (k : String) (dflt : Value) (t : String),
      resolve env s k dflt = .str t →
      pyLower (pyStrip t) ∈ (["false", "no", "0", "off"] : List String) →
      get_bool env s k dflt = .bool false) ∧
    (∀ (env : Env) (s : Store) (k : String) (dflt : Value) (t : String),
      resolve env s k dflt = .str t →
      pyLower (pyStrip t) ∉ (["true", "yes", "1", "on",
        "false", "no", "0", "off"] : List String) →
      get_bool env s k dflt = dflt) ∧
    (∀ (env : Env) (s : Store) (k : String) (dflt : Value) (n : Int),
      resolve env s k dflt = .int n →
      get_bool env s k dflt = .bool (decide (n ≠ 0))) ∧
    (∀ (env : Env) (s : Store) (k : String) (dflt : Value) (q : ℚ),
      resolve env s k dflt = .float q →
      get_bool env s k dflt = .bool (decide (q ≠ 0))) ∧
    (∀ (env : Env) (s : Store) (k : String) (dflt : Value),
      resolve env s k dflt = .none → get_bool env s k dflt = dflt) ∧
    (∀ (env : Env) (s : Store) (k : String) (dflt : Value) (xs : List Value),
      resolve env s k dflt = .list xs → get_bool env s k dflt = dflt) ∧
    (∀ (env : Env) (s : Store) (k : String) (dflt : Value)
        (m : List (String × Value)),
      resolve env s k dflt = .dict m → get_bool env s k dflt = dflt) ∧
    (∀ (env : Env) (dflt : Value),
      get_float env ⟨[("ratio", Value.str "3.14")], false⟩ "ratio" dflt
        = Value.float (3.14 : ℚ) ∧
      get_bool env ⟨[("ratio", Value.str "3.14")], false⟩ "ratio" dflt
        = dflt) := by
  refine ⟨?_, ?_, ?_, ?_, ?_, ?_, ?_, ?_, ?_, ?_⟩
  · intro env s k dflt b h
    simp only [get_bool, h]
  · intro env s k dflt t h htok
    simp only [get_bool, h]
    simp only [List.mem_cons, List.not_mem_nil, or_false] at htok
    rcases htok with h1 | h1 | h1 | h1 <;> simp_all
  · intro env s k dflt t h htok
    simp only [get_bool, h]
    simp only [List.mem_cons, List.not_mem_nil, or_false] at htok
    rcases htok with h1 | h1 | h1 | h1 <;> simp_all
  · intro env s k dflt t h htok
    simp only [get_bool, h]
    simp only [List.mem_cons, List.not_mem_nil, or_false, not_or] at htok
    rw [if_neg (by tauto), if_neg (by tauto)]
  · intro env s k dflt n h
    simp only [get_bool, h]
  · intro env s k dflt q h
    simp only [get_bool, h]
  · intro env s k dflt h
    simp only [get_bool, h]
  · intro env s k dflt xs h
    simp only [get_bool, h]
  · intro env s k dflt m h
    simp only [get_bool, h]
  · intro env dflt
    constructor
    · have hres : resolve env ⟨[("ratio", Value.str "3.14")], false⟩ "ratio"
          dflt = .str "3.14" := rfl
      simp only [get_float, hres, pyFloat, parseDecimal_314]
    · rfl

theorem get_bool_rules_witness :
    (resolve (fun _ => Option.none) ⟨[("flag", Value.str " TRUE ")], false⟩
        "flag" Value.none = Value.str " TRUE " ∧
      pyLower (pyStrip " TRUE ")
        ∈ (["true", "yes", "1", "on"] : List String) ∧
      get_bool (fun _ => Option.none) ⟨[("flag", Value.str " TRUE ")], false⟩
        "flag" Value.none = Value.bool true) ∧
    get_float (fun _ => Option.none) ⟨[("ratio", Value.str "3.14")], false⟩
      "ratio" Value.none = Value.float (3.14 : ℚ) :=
  ⟨⟨rfl, by decide,
    get_bool_rules.2.1 (fun _ => Option.none)
      ⟨[("flag", Value.str " TRUE ")], false⟩ "flag" Value.none " TRUE "
      rfl (by decide)⟩,
   (get_bool_rules.2.2.2.2.2.2.2.2.2 (fun _ => Option.none) Value.none).1⟩

/-! ### Joining and splitting paths -/

theorem keyClean_spec (k : String) (h : keyClean k = true) :
    k ≠ "" ∧ '.' ∉ k.data := by
  simp [keyClean] at h
  exact h

theorem splitDot_append_dot (l1 l2 : List Char) : ∀ acc : List Char,
    splitDot (l1 ++ '.' :: l2) acc = splitDot l1 acc ++ splitDot l2 [] := by
  induction l1 with
  | nil => intro acc; simp [splitDot]
  | cons c cs ih =>
      intro acc
      by_cases h : c = '.'
      · subst h
        simp [splitDot, ih]
      · simp [splitDot, h, ih]

theorem splitDot_no_dot (l : List Char) (h : '.' ∉ l) : ∀ acc : List Char,
    splitDot l acc = [String.mk (acc.reverse ++ l)] := by
  induction l with
  | nil => intro acc; simp [splitDot]
  | cons c cs ih =>
      intro acc
      simp only [List.mem_cons, not_or] at h
      have hc : ¬(c = '.') := fun hh => h.1 hh.symm
      simp only [splitDot, if_neg hc]
      rw [ih h.2]
      congr 2
      simp

theorem splitKey_no_dot (s : String) (h : '.' ∉ s.data) : splitKey s = [s] := by
  rw [splitKey, splitDot_no_dot _ h]
  rfl

theorem append_dot_data (pfx sg : String) :
    (pfx ++ "." ++ sg).data = pfx.data ++ '.' :: sg.data := by
  simp [String.data_append]

theorem append_dot_ne_empty (pfx sg : String) : pfx ++ "." ++ sg ≠ "" := by
  intro hh
  have h2 : (pfx ++ "." ++ sg).data = ("" : String).data := by rw [hh]
  rw [append_dot_data] at h2
  simp at h2

theorem splitKey_append (pfx sg : String) (h : '.' ∉ sg.data) :
    splitKey (pfx ++ "." ++ sg) = splitKey pfx ++ [sg] := by
  show splitDot (pfx ++ "." ++ sg).data [] = splitDot pfx.data [] ++ [sg]
  rw [append_dot_data, splitDot_append_dot, splitDot_no_dot _ h]
  rfl

theorem splitKey_joinl (segs : List String) : ∀ pfx : String, pfx ≠ "" →
    (∀ sg ∈ segs, keyClean sg = true) →
    splitKey (joinl pfx segs) = splitKey pfx ++ segs := by
  induction segs with
  | nil =>
      intro pfx _ _
      simp [joinl]
  | cons sg sgs ih =>
      intro pfx hpfx hcl
      simp only [joinl, if_neg hpfx]
      rw [ih _ (append_dot_ne_empty pfx sg)
        (fun x hx => hcl x (List.mem_cons_of_mem _ hx))]
      rw [splitKey_append _ _
        (keyClean_spec sg (hcl sg (List.mem_cons_self _ _))).2]
      simp

theorem splitKey_joinl_top (segs : List String) (hne : segs ≠ [])
    (hcl : ∀ sg ∈ segs, keyClean sg = true) :
    splitKey (joinl "" segs) = segs := by
  cases segs with
  | nil => exact absurd rfl hne
  | cons sg sgs =>
      simp only [joinl, eq_self_iff_true, if_true]
      cases sgs with
      | nil =>
          simp only [joinl]
          exact splitKey_no_dot sg
            (keyClean_spec sg (hcl sg (List.mem_cons_self _ _))).2
      | cons sg2 sgs2 =>
          rw [splitKey_joinl _ _
            (keyClean_spec sg (hcl sg (List.mem_cons_self _ _))).1
            (fun x hx => hcl x (List.mem_cons_of_mem _ hx))]
          rw [splitKey_no_dot sg
            (keyClean_spec sg (hcl sg (List.mem_cons_self _ _))).2]
          rfl

/-! ### The leaf enumeration behind list_keys -/

theorem listWalk_eq_map_joinl (m : Dict) : ∀ pfx : String,
    listWalk m pfx = (listSegs m).map (joinl pfx) := by
  induction m using listSegs.induct with
  | case1 =>
      intro pfx
      simp [listWalk, listSegs]
  | case2 k v rest hv ih =>
      intro pfx
      cases v with
      | dict mm =>
          simp only [listWalk, listSegs, List.map_append, List.map_map]
          rw [hv, ih]
          refine congrArg (· ++ _) ?_
          exact (List.map_congr_left fun segs _ => rfl).symm
      | none => simp [listWalk, listSegs, joinl, ih]
      | bool b => simp [listWalk, listSegs, joinl, ih]
      | int n => simp [listWalk, listSegs, joinl, ih]
      | float q => simp [listWalk, listSegs, joinl, ih]
      | str t => simp [listWalk, listSegs, joinl, ih]
      | list xs => simp [listWalk, listSegs, joinl, ih]

theorem listSegs_head (m : Dict) : ∀ segs ∈ listSegs m,
    ∃ k' segs', segs = k' :: segs' ∧ k' ∈ m.map Prod.fst := by
  induction m using listSegs.induct with
  | case1 =>
      intro segs h
      simp [listSegs] at h
  | case2 k v rest hv ih =>
      intro segs hmem
      cases v
      case dict mm =>
        simp only [listSegs, List.mem_append] at hmem
        rcases hmem with hmem | hmem
        · obtain ⟨segs', _, rfl⟩ := List.mem_map.mp hmem
          exact ⟨k, segs', rfl, by simp⟩
        · obtain ⟨k', segs', rfl, hk'⟩ := ih segs hmem
          exact ⟨k', segs', rfl, by simp [hk']⟩
      all_goals
        simp only [listSegs, List.mem_append] at hmem
        rcases hmem with hmem | hmem
        · simp only [List.mem_singleton] at hmem
          subst hmem
          exact ⟨k, [], rfl, by simp⟩
        · obtain ⟨k', segs', rfl, hk'⟩ := ih segs hmem
          exact ⟨k', segs', rfl, by simp [hk']⟩

theorem not_any_key (rest : Dict) (k k' : String)
    (h : rest.any (fun kv => kv.1 == k) = false)
    (hk : k' ∈ rest.map Prod.fst) : k ≠ k' := by
  obtain ⟨kv, hkv, rfl⟩ := List.mem_map.mp hk
  rw [List.any_eq_false] at h
  intro he
  have := h kv hkv
  simp [he] at this

theorem getWalk_cons_ne (k : String) (v : Value) (rest : Dict) (k' : String)
    (segs : List String) (dflt : Value) (h : k ≠ k') :
    getWalk (.dict ((k, v) :: rest)) (k' :: segs) dflt
      = getWalk (.dict rest) (k' :: segs) dflt := by
  simp [getWalk, dictGet, if_neg h]

theorem listSegs_clean (m : Dict) : ∀ segs ∈ listSegs m, cleanKeys m = true →
    segs ≠ [] ∧ ∀ sg ∈ segs, keyClean sg = true := by
  induction m using listSegs.induct with
  | case1 =>
      intro segs h _
      simp [listSegs] at h
  | case2 k v rest hv ih =>
      intro segs hmem hcl
      cases v
      case dict mm =>
        simp only [cleanKeys, Bool.and_eq_true] at hcl
        simp only [listSegs, List.mem_append] at hmem
        rcases hmem with hmem | hmem
        · obtain ⟨segs', hsegs', rfl⟩ := List.mem_map.mp hmem
          obtain ⟨hne', hall'⟩ := hv segs' hsegs' hcl.1.2
          refine ⟨by simp, ?_⟩
          intro sg hsg
          rcases List.mem_cons.mp hsg with hsg | hsg
          · subst hsg
            exact hcl.1.1
          · exact hall' sg hsg
        · exact ih segs hmem hcl.2
      all_goals
        simp only [cleanKeys, Bool.and_eq_true] at hcl
        simp only [listSegs, List.mem_append] at hmem
        rcases hmem with hmem | hmem
        · simp only [List.mem_singleton] at hmem
          subst hmem
          refine ⟨by simp, ?_⟩
          intro sg hsg
          rcases List.mem_cons.mp hsg with hsg | hsg
          · subst hsg
            exact hcl.1.1
          · simp at hsg
        · exact ih segs hmem hcl.2

theorem getWalk_listSegs (m : Dict) : ∀ (segs : List String) (dflt : Value),
    nodupKeys m = true → segs ∈ listSegs m → isDict dflt = false →
    isDict (getWalk (.dict m) segs dflt) = false := by
  induction m using listSegs.induct with
  | case1 =>
      intro segs dflt _ hmem _
      simp [listSegs] at hmem
  | case2 k v rest hv ih =>
      intro segs dflt hnd hmem hdflt
      cases v
      case dict mm =>
        simp only [nodupKeys, Bool.and_eq_true] at hnd
        simp only [listSegs, List.mem_append] at hmem
        rcases hmem with hmem | hmem
        · obtain ⟨segs', hsegs', rfl⟩ := List.mem_map.mp hmem
          simp only [getWalk, dictGet, if_pos rfl]
          exact hv segs' dflt hnd.1.2 hsegs' hdflt
        · obtain ⟨k', segs', rfl, hk'⟩ := listSegs_head rest segs hmem
          rw [getWalk_cons_ne _ _ _ _ _ _ (not_any_key rest k k'
            (by simpa using hnd.1.1) hk')]
          exact ih _ dflt hnd.2 hmem hdflt
      all_goals
        simp only [nodupKeys, Bool.and_eq_true] at hnd
        simp only [listSegs, List.mem_append] at hmem
        rcases hmem with hmem | hmem
        · simp only [List.mem_singleton] at hmem
          subst hmem
          simp [getWalk, dictGet, isDict]
        · obtain ⟨k', segs', rfl, hk'⟩ := listSegs_head rest segs hmem
          rw [getWalk_cons_ne _ _ _ _ _ _ (not_any_key rest k k'
            (by simpa using hnd.1.1) hk')]
          exact ih _ dflt hnd.2 hmem hdflt

theorem hasWalk_of_getWalk_dict (ks : List String) : ∀ cur : Value,
    isDict (getWalk cur ks Value.none) = true → hasWalk cur ks = true := by
  induction ks with
  | nil =>
      intro cur _
      rfl
  | cons k ks ih =>
      intro cur h
      cases cur
      case dict d =>
        cases hg : dictGet d k with
        | some v =>
            simp only [getWalk, hg] at h
            simp only [hasWalk, hg]
            exact ih v h
        | none =>
            simp only [getWalk, hg] at h
            simp [isDict] at h
      all_goals
        simp only [getWalk] at h
        simp [isDict] at h

/-- C7 counterexample: a data mapping holding a literal dotted key `"a.b"`
next to nested mappings at `a → b` — such states arise from `merge`,
`import_` or the backing file — makes `list_keys` emit the path `"a.b"`,
which `get` then resolves through the nested route to a mapping, refuting
"every returned path resolves via get to a non-mapping value". -/
theorem list_keys_counterexample :
    "a.b" ∈ list_keys [("a.b", Value.int 1),
        ("a", Value.dict [("b", Value.dict [("c", Value.int 2)])])] ∧
    isDict (get (fun _ => Option.none)
        ⟨[("a.b", Value.int 1),
          ("a", Value.dict [("b", Value.dict [("c", Value.int 2)])])], false⟩
        ["a.b"] Value.none) = true := by
  constructor
  · simp [list_keys, listWalk]
  · rfl

/-- C7 (amended): for every store state, the number of paths `listKeys()`
returns equals the store's reported length and `listKeys()` emits exactly
the joined depth-first leaf enumeration of the data in insertion order
(both unconditionally); and — provided every key in the data is nonempty
and dot-free (with keys unique at every level, as in a real Python dict) —
every returned path resolves via `get` to a non-mapping value. -/
theorem list_keys_length_and_leaves (env : Env) (s : Store) :
    (list_keys s.data).length = storeLen s ∧
    list_keys s.data = (listSegs s.data).map (joinl "") ∧
    (nodupKeys s.data = true → cleanKeys s.data = true →
      ∀ p ∈ list_keys s.data, isDict (get env s [p] Value.none) = false) := by
  refine ⟨rfl, listWalk_eq_map_joinl s.data "", ?_⟩
  intro hnd hcl p hp
  show isDict (resolve env s p Value.none) = false
  simp only [resolve]
  cases hc : check_env env s p with
  | some e => rfl
  | none =>
      simp only [get_single]
      rw [list_keys, listWalk_eq_map_joinl] at hp
      obtain ⟨segs, hsegs, rfl⟩ := List.mem_map.mp hp
      obtain ⟨hne, hall⟩ := listSegs_clean s.data segs hsegs hcl
      rw [splitKey_joinl_top segs hne hall]
      exact getWalk_listSegs s.data segs Value.none hnd hsegs rfl

theorem list_keys_length_and_leaves_witness :
    (list_keys [("a.b", Value.int 1)]).length
      = storeLen ⟨[("a.b", Value.int 1)], false⟩ ∧
    nodupKeys [("server", Value.dict [("host", Value.str "localhost")]),
        ("debug", Value.bool false)] = true ∧
    cleanKeys [("server", Value.dict [("host", Value.str "localhost")]),
        ("debug", Value.bool false)] = true ∧
    ∀ p ∈ list_keys [("server", Value.dict [("host", Value.str "localhost")]),
        ("debug", Value.bool false)],
      isDict (get (fun _ => Option.none)
        ⟨[("server", Value.dict [("host", Value.str "localhost")]),
          ("debug", Value.bool false)], true⟩ [p] Value.none) = false :=
  ⟨(list_keys_length_and_leaves (fun _ => Option.none)
      ⟨[("a.b", Value.int 1)], false⟩).1,
   by simp [nodupKeys],
   by simp [cleanKeys, keyClean],
   (list_keys_length_and_leaves (fun _ => Option.none)
      ⟨[("server", Value.dict [("host", Value.str "localhost")]),
        ("debug", Value.bool false)], true⟩).2.2
      (by simp [nodupKeys]) (by simp [cleanKeys, keyClean])⟩

/-- C9 counterexample: with the literal dotted key `"a.b"` stored next to a
nested mapping at `a → b`, the path `"a.b"` resolves in the data to a
mapping-valued node and `has` is true, yet `"a.b"` IS among the paths
`list_keys` produces (emitted for the dotted literal key) — refuting "p is
not among the paths produced by listKeys()". -/
theorem has_nonleaf_counterexample :
    isDict (getWalk (.dict [("a", Value.dict [("b", Value.dict [])]),
        ("a.b", Value.int 1)]) (splitKey "a.b") Value.none) = true ∧
    has (fun _ => Option.none)
      ⟨[("a", Value.dict [("b", Value.dict [])]), ("a.b", Value.int 1)],
        false⟩ "a.b" = true ∧
    "a.b" ∈ list_keys [("a", Value.dict [("b", Value.dict [])]),
        ("a.b", Value.int 1)] := by
  refine ⟨rfl, rfl, ?_⟩
  simp [list_keys, listWalk]

/-- C9 (amended): provided every key in the data is nonempty and dot-free
(with keys unique at every level, as in a real Python dict), every key path
`p` whose walk resolves in the data to a mapping-valued node satisfies
`has(p) = true` — under any environment — while `p` is not among the paths
`listKeys()` produces; hence `has(p)` does not imply membership in
`listKeys()`. -/
theorem has_nonleaf_amended (env : Env) (s : Store) (p : String)
    (hnd : nodupKeys s.data = true) (hcl : cleanKeys s.data = true)
    (hdict : isDict (getWalk (.dict s.data) (splitKey p) Value.none)
      = true) :
    has env s p = true ∧ p ∉ list_keys s.data := by
  constructor
  · rw [has]
    by_cases hc : s.envOverride ∧ (check_env env s p).isSome
    · rw [if_pos hc]
    · rw [if_neg hc]
      exact hasWalk_of_getWalk_dict (splitKey p) (.dict s.data) hdict
  · intro hp
    rw [list_keys, listWalk_eq_map_joinl] at hp
    obtain ⟨segs, hsegs, hpj⟩ := List.mem_map.mp hp
    obtain ⟨hne, hall⟩ := listSegs_clean s.data segs hsegs hcl
    rw [← hpj, splitKey_joinl_top segs hne hall] at hdict
    have hfalse := getWalk_listSegs s.data segs Value.none hnd hsegs rfl
    rw [hdict] at hfalse
    exact absurd hfalse (by simp)

theorem has_nonleaf_amended_witness :
    nodupKeys [("a", Value.dict [("b", Value.int 1)])] = true ∧
    cleanKeys [("a", Value.dict [("b", Value.int 1)])] = true ∧
    isDict (getWalk (.dict [("a", Value.dict [("b", Value.int 1)])])
      (splitKey "a") Value.none) = true ∧
    has (fun _ => Option.none)
      ⟨[("a", Value.dict [("b", Value.int 1)])], true⟩ "a" = true ∧
    "a" ∉ list_keys [("a", Value.dict [("b", Value.int 1)])] :=
  ⟨by simp [nodupKeys],
   by simp [cleanKeys, keyClean],
   rfl,
   (has_nonleaf_amended (fun _ => Option.none)
      ⟨[("a", Value.dict [("b", Value.int 1)])], true⟩ "a"
      (by simp [nodupKeys]) (by simp [cleanKeys, keyClean]) rfl).1,
   (has_nonleaf_amended (fun _ => Option.none)
      ⟨[("a", Value.dict [("b", Value.int 1)])], true⟩ "a"
      (by simp [nodupKeys]) (by simp [cleanKeys, keyClean]) rfl).2⟩

end Vanisher
